import Mathlib

/-!
# Three-qubit state-vector simulator: embedding and verified properties

Shallow embedding of `Quantum_Circuit_Simulator.c`.

* `double` amplitudes are rational numbers: every finite `double` is one, so
  amplitudes are pairs of `ℚ`, and the literal `0.7071067811865476` is the
  `double` it denotes, `6369051672525773 / 2^53`.  Sums and products are exact:
  the rounding of `double` arithmetic is not modelled, so the results below are
  about the program where its operations are exact (copies, products with 0 and
  1, sums with 0) and about exact arithmetic elsewhere.
* `int` values are `Int`; all values that occur are far from the 32-bit limits.
* A C array access outside its bounds and a shift by a negative or too large
  count are undefined behaviour; the embedding returns `none` there, so
  `some _` means that the C function ran to completion without leaving the
  arrays.
* The gate loop of `main` is a function of the session (state vector, circuit
  grid, `gate_count`) and of the tokens that the input holds for the `scanf`
  calls of one pass; a word that does not fit `char choice[10]` is undefined
  behaviour, `none`.  Output is left out.
-/

namespace QSim

/-! ## Constants and data types -/

/-- The constant `NUM_QUBITS`, 3. -/
abbrev NUM_QUBITS : Int := 3

/-- The constant `STATE_SIZE`, 8. -/
abbrev STATE_SIZE : Nat := 8

/-- The constant `MAX_GATES`, 20. -/
abbrev MAX_GATES : Nat := 20

/-- The struct `Complex`: a real and an imaginary part. -/
structure Complex where
  real : ℚ
  imag : ℚ
deriving DecidableEq

/-- The struct `QState`: an array of `STATE_SIZE` amplitudes. -/
@[ext]
structure QState where
  amplitudes : Fin STATE_SIZE → Complex

/-- A gate argument `Complex gate[2][2]`. -/
abbrev Gate := Fin 2 → Fin 2 → Complex

/-! ## Complex number functions -/

/-- The function `c_add`: componentwise sum. -/
def c_add (a b : Complex) : Complex :=
  ⟨a.real + b.real, a.imag + b.imag⟩

/-- The function `c_mul`: complex product. -/
def c_mul (a b : Complex) : Complex :=
  ⟨a.real * b.real - a.imag * b.imag, a.real * b.imag + a.imag * b.real⟩

/-- The function `c_abs2`: squared modulus. -/
def c_abs2 (a : Complex) : ℚ :=
  a.real * a.real + a.imag * a.imag

/-! ## Gate matrices -/

/-- The constant `INV_SQRT2`: the `double` that the literal `0.7071067811865476`
denotes, which is `6369051672525773 / 2^53`. -/
def INV_SQRT2 : ℚ := 6369051672525773 / 9007199254740992

/-- The Hadamard table `H`. -/
def H : Gate :=
  ![![⟨INV_SQRT2, 0⟩, ⟨INV_SQRT2, 0⟩],
    ![⟨INV_SQRT2, 0⟩, ⟨-INV_SQRT2, 0⟩]]

/-- The Pauli-X table `X`. -/
def X : Gate :=
  ![![⟨0, 0⟩, ⟨1, 0⟩],
    ![⟨1, 0⟩, ⟨0, 0⟩]]

/-! ## Array accesses and shifts -/

/-- Read `qs->amplitudes[i]`; `none` when `i` is outside the array. -/
def QState.read (qs : QState) (i : Int) : Option Complex :=
  if h : 0 ≤ i ∧ i < STATE_SIZE then some (qs.amplitudes ⟨i.toNat, by omega⟩) else none

/-- Write `qs->amplitudes[i] = v`; `none` when `i` is outside the array. -/
def QState.write (qs : QState) (i : Int) (v : Complex) : Option QState :=
  if h : 0 ≤ i ∧ i < STATE_SIZE then
    some ⟨Function.update qs.amplitudes ⟨i.toNat, by omega⟩ v⟩
  else none

/-- Read `gate[r][c]`; `none` when an index is outside the table. -/
def gate_read (gate : Gate) (r c : Int) : Option Complex :=
  if h : (0 ≤ r ∧ r < 2) ∧ (0 ≤ c ∧ c < 2) then
    some (gate ⟨r.toNat, by omega⟩ ⟨c.toNat, by omega⟩)
  else none

/-- Two's-complement bit pattern of a 32-bit `int`, as a number below `2^32`. -/
def bits (x : Int) : Nat := (x % 2 ^ 32).toNat

/-- The `int` whose two's-complement bit pattern is `n`. -/
def of_bits (n : Nat) : Int := if n < 2 ^ 31 then (n : Int) else (n : Int) - 2 ^ 32

/-- The C expression `a & b` on `int`. -/
def int_and (a b : Int) : Int := of_bits (bits a &&& bits b)

/-- The C expression `a | b` on `int`. -/
def int_or (a b : Int) : Int := of_bits (bits a ||| bits b)

/-- The C expression `a ^ b` on `int`. -/
def int_xor (a b : Int) : Int := of_bits (bits a ^^^ bits b)

/-- The C expression `~a` on `int`: every one of the 32 bits inverted. -/
def int_not (a : Int) : Int := of_bits (bits a ^^^ (2 ^ 32 - 1))

/-- The C expression `a << s` on `int`; `none` for an invalid shift count. -/
def shl (a s : Int) : Option Int :=
  if 0 ≤ s ∧ s < 32 then some (a <<< s) else none

/-- The C expression `a >> s` on `int`; `none` for an invalid shift count. -/
def shr (a s : Int) : Option Int :=
  if 0 ≤ s ∧ s < 32 then some (a >>> s) else none

/-- The value of `QState new_state = {0};`. -/
def QState.zero : QState := ⟨fun _ => ⟨0, 0⟩⟩

/-! ## The simulator functions -/

/-- The function `init_state`: clear both fields of every amplitude, then set
`amplitudes[0].real = 1`. -/
def init_state (qs : QState) : Option QState := do
  let qs ← (List.range STATE_SIZE).foldlM
    (fun (qs : QState) (i : Nat) => do
      let a ← qs.read i
      let qs ← qs.write i ⟨0, a.imag⟩
      let a ← qs.read i
      qs.write i ⟨a.real, 0⟩)
    qs
  let a ← qs.read 0
  qs.write 0 ⟨1, a.imag⟩

/-- The expression `(i >> (NUM_QUBITS - 1 - q)) & 1`, used for `bit` in
`apply_single_gate` and for `control_bit` in `apply_cnot`. -/
def bit_at (i q : Int) : Option Int := do
  let sh ← shr i (NUM_QUBITS - 1 - q)
  pure (int_and sh 1)

/-- The index `flipped` of `apply_single_gate`:
`(i & ~(1 << (NUM_QUBITS - 1 - target))) | (j << (NUM_QUBITS - 1 - target))`. -/
def flipped (i j target : Int) : Option Int := do
  let m ← shl 1 (NUM_QUBITS - 1 - target)
  let jm ← shl j (NUM_QUBITS - 1 - target)
  pure (int_or (int_and i (int_not m)) jm)

/-- The index `new_index` of `apply_cnot`: `i`, xor-ed with
`1 << (NUM_QUBITS - 1 - target)` when the control bit is set. -/
def new_index (i control target : Int) : Option Int := do
  let control_bit ← bit_at i control
  if control_bit ≠ 0 then do
    let m ← shl 1 (NUM_QUBITS - 1 - target)
    pure (int_xor i m)
  else pure i

/-- The function `apply_single_gate`: for each index `i` and each `j`, add
`gate[j][bit] * qs[i]` to slot `flipped` of a zero-initialised state, which
then replaces `*qs`. -/
def apply_single_gate (qs : QState) (gate : Gate) (target : Int) : Option QState :=
  (List.range STATE_SIZE).foldlM
    (fun (new_state : QState) (i : Nat) => do
      let bit ← bit_at i target
      (List.range 2).foldlM
        (fun (new_state : QState) (j : Nat) => do
          let flipped ← flipped i j target
          let old ← new_state.read flipped
          let g ← gate_read gate j bit
          let a ← qs.read i
          new_state.write flipped (c_add old (c_mul g a)))
        new_state)
    QState.zero

/-- The function `apply_cnot`: copy `qs[i]` to slot `new_index` of a zero-initialised
state, which then replaces `*qs`. -/
def apply_cnot (qs : QState) (control target : Int) : Option QState :=
  (List.range STATE_SIZE).foldlM
    (fun (new_state : QState) (i : Nat) => do
      let new_index ← new_index i control target
      let a ← qs.read i
      new_state.write new_index a)
    QState.zero

/-! ## The state display -/

/-- The three digits `(i >> 2) & 1, (i >> 1) & 1, i & 1` that `print_state`
prints as the label of index `i`. -/
def print_state_label (i : Int) : Option (Int × Int × Int) := do
  let a ← shr i 2
  let b ← shr i 1
  pure (int_and a 1, int_and b 1, int_and i 1)

/-- The function `print_state`, as the rows it prints: for each index the three
digits of its label and the amplitude stored there. -/
def print_state (qs : QState) : Option (List ((Int × Int × Int) × Complex)) :=
  (List.range STATE_SIZE).mapM (fun (i : Nat) => do
    let l ← print_state_label i
    let a ← qs.read i
    pure (l, a))

/-! ## The circuit grid -/

/-- The global `char circuit[NUM_QUBITS][MAX_GATES]`. -/
abbrev Circuit := Fin 3 → Fin MAX_GATES → Char

/-- Write `circuit[row][col] = ch`; `none` when an index is outside the grid. -/
def circuit_write (circuit : Circuit) (row col : Int) (ch : Char) : Option Circuit :=
  if h : (0 ≤ row ∧ row < 3) ∧ (0 ≤ col ∧ col < MAX_GATES) then
    some (Function.update circuit ⟨row.toNat, by omega⟩
      (Function.update (circuit ⟨row.toNat, by omega⟩) ⟨col.toNat, by omega⟩ ch))
  else none

/-- The function `add_single_gate_to_circuit`: `circuit[qubit][col] = gate`. -/
def add_single_gate_to_circuit (circuit : Circuit) (gate : Char) (qubit col : Int) :
    Option Circuit :=
  circuit_write circuit qubit col gate

/-- The function `add_cnot_to_circuit`: a bar in every row of column `col`,
then `O` at the control row and `X` at the target row. -/
def add_cnot_to_circuit (circuit : Circuit) (control target col : Int) : Option Circuit := do
  let circuit ← (List.range 3).foldlM
    (fun (circuit : Circuit) (i : Nat) => circuit_write circuit i col '|')
    circuit
  let circuit ← circuit_write circuit control col 'O'
  circuit_write circuit target col 'X'

/-! ## The gate loop of `main` -/

/-- The variables of `main` that the gate loop changes: the state vector, the
circuit grid and `gate_count`. -/
structure Session where
  qs : QState
  circuit : Circuit
  gate_count : Int

/-- How one pass through the body of the gate loop ends: at the end of the
body or at a `continue` (`next`), or at the `break` of `DONE` (`stop`). -/
inductive Flow where
  | next (s : Session)
  | stop (s : Session)

/-- One pass through the body of `while (gate_count < MAX_GATES)`.  The
arguments are what the input holds for the `scanf` calls of the pass: the word
`choice` and the integers `n1`, `n2` (for `H` and `X` only `n1` is read, as
`target`; for `CNOT` `n1` is `control` and `n2` is `target`).
`scanf("%s", choice)` copies the word and a terminating zero into
`char choice[10]` without a width: a word of 10 or more bytes is written past
the end of the array, which is undefined behaviour, `none`.  The `printf` calls
are left out. -/
def loop_body (s : Session) (choice : String) (n1 n2 : Int) : Option Flow :=
  if 10 ≤ choice.utf8ByteSize then none
  else if choice = "DONE" then some (Flow.stop s)
  else if choice = "H" ∨ choice = "X" then
    if n1 < 0 ∨ n1 ≥ NUM_QUBITS then some (Flow.next s)
    else do
      let qs ← if choice = "H" then apply_single_gate s.qs H n1
               else apply_single_gate s.qs X n1
      let circuit ← add_single_gate_to_circuit s.circuit choice.front n1 s.gate_count
      pure (Flow.next ⟨qs, circuit, s.gate_count + 1⟩)
  else if choice = "CNOT" then
    if n1 = n2 ∨ n1 < 0 ∨ n2 < 0 ∨ n1 ≥ NUM_QUBITS ∨ n2 ≥ NUM_QUBITS then
      some (Flow.next s)
    else do
      let qs ← apply_cnot s.qs n1 n2
      let circuit ← add_cnot_to_circuit s.circuit n1 n2 s.gate_count
      pure (Flow.next ⟨qs, circuit, s.gate_count + 1⟩)
  else some (Flow.next s)

/-- Value of qubit `t` in basis index `k`, with qubit 0 the most significant
of the three bits. -/
def qubit_of (t : Fin 3) (k : Fin 8) : Fin 2 :=
  ⟨(k.val / 2 ^ (2 - t.val)) % 2, Nat.mod_lt _ (by decide)⟩

/-- Basis index `k` with qubit `t` replaced by `v`. -/
def with_qubit (t : Fin 3) (k : Fin 8) (v : Fin 2) : Fin 8 :=
  ⟨k.val - (qubit_of t k).val * 2 ^ (2 - t.val) + v.val * 2 ^ (2 - t.val), by
    revert t k v; decide⟩

/-- Destination of index `i` under CNOT: qubit `t` flipped when qubit `c` is 1. -/
def cnot_dest (c t : Fin 3) (i : Fin 8) : Fin 8 :=
  if qubit_of c i = 1 then ⟨i.val ^^^ (1 <<< (2 - t.val)), by revert t i; decide⟩ else i

/-- The contraction of a 2x2 matrix with a state along qubit `t`. -/
def contract (psi : QState) (G : Gate) (t : Fin 3) : QState :=
  ⟨fun k => c_add (c_mul (G (qubit_of t k) 0) (psi.amplitudes (with_qubit t k 0)))
                  (c_mul (G (qubit_of t k) 1) (psi.amplitudes (with_qubit t k 1)))⟩

/-- The state `psi` with its amplitudes permuted by CNOT. -/
def permute_cnot (psi : QState) (c t : Fin 3) : QState :=
  ⟨fun k => psi.amplitudes (cnot_dest c t k)⟩

/-- Basis index `k` with qubit `t` inverted. -/
def flip_qubit (t : Fin 3) (k : Fin 8) : Fin 8 :=
  with_qubit t k (qubit_of t k + 1)

/-- The state `psi` with the two halves selected by qubit `t` exchanged. -/
def permute_flip (psi : QState) (t : Fin 3) : QState :=
  ⟨fun k => psi.amplitudes (flip_qubit t k)⟩

/-- The basis state `|b>`: amplitude `1 + 0i` at index `b` and `0` elsewhere. -/
def basis_state (b : Fin 8) : QState :=
  ⟨fun k => if k = b then ⟨1, 0⟩ else ⟨0, 0⟩⟩

/-- Complex conjugate. -/
def c_conj (a : Complex) : Complex := ⟨a.real, -a.imag⟩

/-- Product of two 2x2 matrices, with the sums and products of the program. -/
def mat_mul (A B : Gate) : Gate :=
  fun i j => c_add (c_mul (A i 0) (B 0 j)) (c_mul (A i 1) (B 1 j))

/-- Conjugate transpose of a 2x2 matrix. -/
def dagger (U : Gate) : Gate := fun i j => c_conj (U j i)

/-- The 2x2 identity matrix. -/
def identity : Gate :=
  ![![⟨1, 0⟩, ⟨0, 0⟩],
    ![⟨0, 0⟩, ⟨1, 0⟩]]

/-- A matrix is unitary when `U * U^dagger = I`. -/
def is_unitary (U : Gate) : Prop := mat_mul U (dagger U) = identity

/-- Sum of `c_abs2` over the eight amplitudes. -/
def total_probability (psi : QState) : ℚ :=
  ∑ k : Fin STATE_SIZE, c_abs2 (psi.amplitudes k)

/-- The grid with the letter `ch` drawn at row `row` of column `col`. -/
def single_column (circuit : Circuit) (ch : Char) (row : Fin 3) (col : Fin MAX_GATES) :
    Circuit :=
  fun r j => if r = row ∧ j = col then ch else circuit r j

/-- The grid with a CNOT drawn in column `col`: `X` at the target row, `O` at
the control row and a bar in the remaining row. -/
def cnot_column (circuit : Circuit) (control target : Fin 3) (col : Fin MAX_GATES) : Circuit :=
  fun r j =>
    if j = col then (if r = target then 'X' else if r = control then 'O' else '|')
    else circuit r j

/-- Digit `q` of a label of `print_state`. -/
def label_digit (l : Int × Int × Int) (q : Fin 3) : Int :=
  match q with
  | 0 => l.1
  | 1 => l.2.1
  | 2 => l.2.2

/-! ## The amplitudes as a commutative ring

`c_add` and `c_mul` are the sum and product of a commutative ring, which lets
the ring tactics work on amplitudes. -/

instance : Zero Complex := ⟨⟨0, 0⟩⟩

instance : One Complex := ⟨⟨1, 0⟩⟩

instance : Add Complex := ⟨c_add⟩

instance : Mul Complex := ⟨c_mul⟩

instance : Neg Complex := ⟨fun a => ⟨-a.real, -a.imag⟩⟩

instance : CommRing Complex :=
  CommRing.ofMinimalAxioms
    (fun a b c => by
      show c_add (c_add a b) c = c_add a (c_add b c)
      simp only [c_add, Complex.mk.injEq]; constructor <;> ring)
    (fun a => by
      show c_add ⟨0, 0⟩ a = a
      cases a; simp [c_add])
    (fun a => by
      show c_add ⟨-a.real, -a.imag⟩ a = ⟨0, 0⟩
      simp [c_add])
    (fun a b c => by
      show c_mul (c_mul a b) c = c_mul a (c_mul b c)
      simp only [c_mul, Complex.mk.injEq]; constructor <;> ring)
    (fun a b => by
      show c_mul a b = c_mul b a
      simp only [c_mul, Complex.mk.injEq]; constructor <;> ring)
    (fun a => by
      show c_mul ⟨1, 0⟩ a = a
      cases a; simp [c_mul])
    (fun a b c => by
      show c_mul a (c_add b c) = c_add (c_mul a b) (c_mul a c)
      simp only [c_mul, c_add, Complex.mk.injEq]; constructor <;> ring)

/-! ## Evaluation of the loops -/

theorem c_zero_add (z : Complex) : c_add ⟨0, 0⟩ z = z := by
  cases z; simp [c_add]

theorem eq_some_of_get {o : Option QState} {s : QState} (h : o.isSome = true)
    (hk : ∀ k, (o.get h).amplitudes k = s.amplitudes k) : o = some s := by
  rw [← Option.some_get h]
  exact congrArg some (QState.ext (funext hk))

/-- The loop of `apply_single_gate` with the additions in the order the code
performs them, starting from the zero of `new_state`. -/
theorem apply_single_gate_raw (psi : QState) (G : Gate) (t : Fin 3) :
    apply_single_gate psi G (t.val : Int) = some
      ⟨fun k => c_add
        (c_add ⟨0, 0⟩ (c_mul (G (qubit_of t k) 0) (psi.amplitudes (with_qubit t k 0))))
        (c_mul (G (qubit_of t k) 1) (psi.amplitudes (with_qubit t k 1)))⟩ := by
  fin_cases t
  all_goals exact eq_some_of_get rfl (fun k => by fin_cases k <;> rfl)

theorem apply_single_gate_eq (psi : QState) (G : Gate) (t : Fin 3) :
    apply_single_gate psi G (t.val : Int) = some (contract psi G t) := by
  rw [apply_single_gate_raw]
  simp only [c_zero_add, contract]

theorem cnot_dest_involutive (c t : Fin 3) (hct : c ≠ t) (i : Fin 8) :
    cnot_dest c t (cnot_dest c t i) = i := by
  revert c t i; decide

theorem apply_cnot_eq (psi : QState) (c t : Fin 3) (hct : c ≠ t) :
    apply_cnot psi (c.val : Int) (t.val : Int) = some (permute_cnot psi c t) := by
  fin_cases c <;> fin_cases t <;> first
    | exact absurd rfl hct
    | exact eq_some_of_get rfl (fun k => by fin_cases k <;> rfl)

/-! ## Index arithmetic -/

theorem qubit_of_shift (t : Fin 3) (k : Fin 8) :
    (qubit_of t k).val = (k.val >>> (2 - t.val)) &&& 1 := by
  revert t k; decide

theorem qubit_of_with_qubit (t : Fin 3) (k : Fin 8) (v : Fin 2) :
    qubit_of t (with_qubit t k v) = v := by
  revert t k v; decide

theorem qubit_of_with_qubit_ne (s t : Fin 3) (hst : s ≠ t) (k : Fin 8) (v : Fin 2) :
    qubit_of s (with_qubit t k v) = qubit_of s k := by
  revert s t k v; decide

theorem with_qubit_with_qubit (t : Fin 3) (k : Fin 8) (v w : Fin 2) :
    with_qubit t (with_qubit t k v) w = with_qubit t k w := by
  revert t k v w; decide

theorem with_qubit_self (t : Fin 3) (k : Fin 8) :
    with_qubit t k (qubit_of t k) = k := by
  revert t k; decide

theorem flip_qubit_involutive (t : Fin 3) (k : Fin 8) :
    flip_qubit t (flip_qubit t k) = k := by
  revert t k; decide

theorem flip_qubit_xor (t : Fin 3) (k : Fin 8) :
    (flip_qubit t k).val = k.val ^^^ (1 <<< (2 - t.val)) := by
  revert t k; decide

theorem cnot_dest_bijective (c t : Fin 3) (hct : c ≠ t) :
    Function.Bijective (cnot_dest c t) :=
  (Function.Involutive.bijective (cnot_dest_involutive c t hct))

theorem new_index_eq (c t : Fin 3) (i : Fin 8) :
    new_index (i.val : Int) (c.val : Int) (t.val : Int) = some ((cnot_dest c t i).val : Int) := by
  revert c t i; decide

theorem new_index_once (c t : Fin 3) (hct : c ≠ t) (k : Fin 8) :
    ((List.range STATE_SIZE).filter
      (fun i => new_index (i : Int) (c.val : Int) (t.val : Int) = some (k.val : Int))).length
      = 1 := by
  revert c t k; decide

/-! ## The single-qubit gate is a contraction -/

/-- C1: for every state `psi`, every 2x2 matrix `G` and every target `t` in
{0,1,2}, `apply_single_gate` runs to completion and the state it leaves has, at
every index `k`, the amplitude `G[b][0]*psi[k0] + G[b][1]*psi[k1]`, where
`b = (k >> (2-t)) & 1` is qubit `t` of `k` and `k0`, `k1` are `k` with that bit
cleared and set, the other bits being those of `k`. -/
theorem apply_single_gate_contraction (psi : QState) (G : Gate) (t : Fin 3) :
    ∃ psi', apply_single_gate psi G (t.val : Int) = some psi' ∧
      ∀ k : Fin 8,
        psi'.amplitudes k =
            c_add (c_mul (G (qubit_of t k) 0) (psi.amplitudes (with_qubit t k 0)))
                  (c_mul (G (qubit_of t k) 1) (psi.amplitudes (with_qubit t k 1))) ∧
          (qubit_of t k).val = (k.val >>> (2 - t.val)) &&& 1 ∧
          (∀ v : Fin 2, qubit_of t (with_qubit t k v) = v) ∧
          (∀ v : Fin 2, ∀ s : Fin 3, s ≠ t → qubit_of s (with_qubit t k v) = qubit_of s k) :=
  ⟨contract psi G t, apply_single_gate_eq psi G t, fun k =>
    ⟨rfl, qubit_of_shift t k, fun v => qubit_of_with_qubit t k v,
      fun v s hst => qubit_of_with_qubit_ne s t hst k v⟩⟩

/-! ## CNOT is a permutation -/

/-- C2: for every state `psi` and all control, target in {0,1,2} with
control != target, `apply_cnot` runs to completion and the state it leaves has
`psi'[d(i)] = psi[i]` at every index `i`, where `d(i)` is `i` with the target
bit xor-ed in when the control bit of `i` is 1 and `i` otherwise; `d` is the
index the loop writes at step `i`, it is a bijection of the eight indices, every
slot is written in exactly one step, and every slot holds an amplitude of
`psi`. -/
theorem apply_cnot_permutation (psi : QState) (c t : Fin 3) (hct : c ≠ t) :
    ∃ psi', apply_cnot psi (c.val : Int) (t.val : Int) = some psi' ∧
      (∀ i : Fin 8, psi'.amplitudes (cnot_dest c t i) = psi.amplitudes i) ∧
      (∀ i : Fin 8, (cnot_dest c t i).val =
        if (i.val >>> (2 - c.val)) &&& 1 = 1 then i.val ^^^ (1 <<< (2 - t.val)) else i.val) ∧
      (∀ i : Fin 8,
        new_index (i.val : Int) (c.val : Int) (t.val : Int)
          = some ((cnot_dest c t i).val : Int)) ∧
      Function.Bijective (cnot_dest c t) ∧
      (∀ k : Fin 8, ((List.range STATE_SIZE).filter
        (fun i => new_index (i : Int) (c.val : Int) (t.val : Int)
          = some (k.val : Int))).length = 1) ∧
      (∀ k : Fin 8, ∃ i : Fin 8, cnot_dest c t i = k ∧
        psi'.amplitudes k = psi.amplitudes i) := by
  refine ⟨permute_cnot psi c t, apply_cnot_eq psi c t hct, ?_, ?_, new_index_eq c t,
    cnot_dest_bijective c t hct, new_index_once c t hct, ?_⟩
  · intro i
    show psi.amplitudes (cnot_dest c t (cnot_dest c t i)) = psi.amplitudes i
    rw [cnot_dest_involutive c t hct]
  · revert c t; decide
  · intro k
    exact ⟨cnot_dest c t k, cnot_dest_involutive c t hct k, rfl⟩

/-- C2 at control 0, target 1 and the basis state `|100>`: the amplitude 1
moves to `|110>`. -/
theorem apply_cnot_permutation_witness :
    (0 : Fin 3) ≠ 1 ∧
      ∃ psi', apply_cnot (basis_state 4) 0 1 = some psi' ∧
        psi'.amplitudes 6 = ⟨1, 0⟩ := by
  refine ⟨by decide, ?_⟩
  obtain ⟨psi', h, hd, -⟩ := apply_cnot_permutation (basis_state 4) 0 1 (by decide)
  exact ⟨psi', h, hd 4⟩

/-! ## Unitary matrices preserve the total probability -/

theorem c_add_eq (a b : Complex) : c_add a b = a + b := rfl

theorem c_mul_eq (a b : Complex) : c_mul a b = a * b := rfl

theorem add_real (a b : Complex) : (a + b).real = a.real + b.real := rfl

theorem c_conj_add (a b : Complex) : c_conj (a + b) = c_conj a + c_conj b := by
  show c_conj (c_add a b) = c_add (c_conj a) (c_conj b)
  simp only [c_conj, c_add, Complex.mk.injEq, true_and]; ring

theorem c_conj_mul (a b : Complex) : c_conj (a * b) = c_conj a * c_conj b := by
  show c_conj (c_mul a b) = c_mul (c_conj a) (c_conj b)
  simp only [c_conj, c_mul, Complex.mk.injEq]; constructor <;> ring

theorem c_abs2_eq (a : Complex) : c_abs2 a = (a * c_conj a).real := by
  show c_abs2 a = (c_mul a (c_conj a)).real
  simp only [c_abs2, c_mul, c_conj]; ring

/-- The rows of a 2x2 matrix are orthonormal exactly when its columns are:
`U * U^dagger = I` gives the entries of `U^dagger * U = I`. -/
theorem unitary_columns (U : Gate) (hU : is_unitary U) :
    c_conj (U 0 0) * U 0 0 + c_conj (U 1 0) * U 1 0 = 1 ∧
    c_conj (U 0 0) * U 0 1 + c_conj (U 1 0) * U 1 1 = 0 ∧
    c_conj (U 0 1) * U 0 0 + c_conj (U 1 1) * U 1 0 = 0 ∧
    c_conj (U 0 1) * U 0 1 + c_conj (U 1 1) * U 1 1 = 1 := by
  have hAB : Matrix.of U * Matrix.of (dagger U) = (1 : Matrix (Fin 2) (Fin 2) Complex) := by
    ext i j
    have hij := congrFun (congrFun hU i) j
    rw [Matrix.mul_apply, Fin.sum_univ_two]
    simp only [Matrix.of_apply]
    rw [← c_add_eq, ← c_mul_eq, ← c_mul_eq]
    show mat_mul U (dagger U) i j = _
    rw [hij]
    fin_cases i <;> fin_cases j <;> rfl
  have hBA := Matrix.mul_eq_one_comm.mp hAB
  have e := fun i j => congrFun (congrFun hBA i) j
  have e00 := e 0 0
  have e01 := e 0 1
  have e10 := e 1 0
  have e11 := e 1 1
  simp only [Matrix.mul_apply, Fin.sum_univ_two, Matrix.of_apply, dagger] at e00 e01 e10 e11
  exact ⟨e00, e01, e10, e11⟩

theorem unitary_pair (U : Gate) (hU : is_unitary U) (x y : Complex) :
    c_abs2 (c_add (c_mul (U 0 0) x) (c_mul (U 0 1) y)) +
      c_abs2 (c_add (c_mul (U 1 0) x) (c_mul (U 1 1) y)) = c_abs2 x + c_abs2 y := by
  obtain ⟨g1, g2, g3, g4⟩ := unitary_columns U hU
  simp only [c_abs2_eq, c_add_eq, c_mul_eq, ← add_real, c_conj_add, c_conj_mul]
  congr 1
  linear_combination (x * c_conj x) * g1 + (y * c_conj x) * g2 + (x * c_conj y) * g3
    + (y * c_conj y) * g4

theorem fin2_cases (b : Fin 2) : b = 0 ∨ b = 1 := by revert b; decide

theorem flip_facts_zero (t : Fin 3) (k : Fin 8) (h : qubit_of t k = 0) :
    with_qubit t k 0 = k ∧ with_qubit t k 1 = flip_qubit t k ∧
      qubit_of t (flip_qubit t k) = 1 ∧
      with_qubit t (flip_qubit t k) 0 = k ∧
      with_qubit t (flip_qubit t k) 1 = flip_qubit t k := by
  revert t k; decide

theorem flip_facts_one (t : Fin 3) (k : Fin 8) (h : qubit_of t k = 1) :
    with_qubit t k 1 = k ∧ with_qubit t k 0 = flip_qubit t k ∧
      qubit_of t (flip_qubit t k) = 0 ∧
      with_qubit t (flip_qubit t k) 1 = k ∧
      with_qubit t (flip_qubit t k) 0 = flip_qubit t k := by
  revert t k; decide

/-- When the matrix `U` scales the probability of every pair of amplitudes by
`s`, an index and its partner under the flip of qubit `t` carry `s` times their
joint probability after the gate on `t`. -/
theorem scaled_pair_at (U : Gate) (s : ℚ)
    (hp : ∀ x y : Complex,
      c_abs2 (c_add (c_mul (U 0 0) x) (c_mul (U 0 1) y)) +
        c_abs2 (c_add (c_mul (U 1 0) x) (c_mul (U 1 1) y)) = s * (c_abs2 x + c_abs2 y))
    (psi : QState) (t : Fin 3) (k : Fin 8) :
    c_abs2 ((contract psi U t).amplitudes k)
        + c_abs2 ((contract psi U t).amplitudes (flip_qubit t k))
      = s * (c_abs2 (psi.amplitudes k) + c_abs2 (psi.amplitudes (flip_qubit t k))) := by
  rcases fin2_cases (qubit_of t k) with h | h
  · obtain ⟨h1, h2, h3, h4, h5⟩ := flip_facts_zero t k h
    simp only [contract, h, h1, h2, h3, h4, h5]
    exact hp _ _
  · obtain ⟨h1, h2, h3, h4, h5⟩ := flip_facts_one t k h
    simp only [contract, h, h1, h2, h3, h4, h5]
    rw [add_comm, hp, add_comm]

theorem sum_flip (t : Fin 3) (F : Fin 8 → ℚ) :
    ∑ k : Fin 8, F (flip_qubit t k) = ∑ k : Fin 8, F k :=
  Equiv.sum_comp (Function.Involutive.toPerm (flip_qubit t) (flip_qubit_involutive t)) F

theorem total_probability_scaled (U : Gate) (s : ℚ)
    (hp : ∀ x y : Complex,
      c_abs2 (c_add (c_mul (U 0 0) x) (c_mul (U 0 1) y)) +
        c_abs2 (c_add (c_mul (U 1 0) x) (c_mul (U 1 1) y)) = s * (c_abs2 x + c_abs2 y))
    (psi : QState) (t : Fin 3) :
    total_probability (contract psi U t) = s * total_probability psi := by
  have e1 := sum_flip t (fun k => c_abs2 ((contract psi U t).amplitudes k))
  have e2 := sum_flip t (fun k => c_abs2 (psi.amplitudes k))
  have e3 : ∑ k : Fin 8, (c_abs2 ((contract psi U t).amplitudes k)
        + c_abs2 ((contract psi U t).amplitudes (flip_qubit t k)))
      = ∑ k : Fin 8,
          s * (c_abs2 (psi.amplitudes k) + c_abs2 (psi.amplitudes (flip_qubit t k))) :=
    Finset.sum_congr rfl (fun k _ => scaled_pair_at U s hp psi t k)
  rw [← Finset.mul_sum, Finset.sum_add_distrib, Finset.sum_add_distrib] at e3
  show ∑ k : Fin 8, c_abs2 ((contract psi U t).amplitudes k)
    = s * ∑ k : Fin 8, c_abs2 (psi.amplitudes k)
  linear_combination (1 / 2 : ℚ) * e3 - (1 / 2 : ℚ) * e1 + (s / 2) * e2

theorem total_probability_contract (U : Gate) (hU : is_unitary U) (psi : QState)
    (t : Fin 3) :
    total_probability (contract psi U t) = total_probability psi := by
  rw [total_probability_scaled U 1 (fun x y => by rw [one_mul]; exact unitary_pair U hU x y),
    one_mul]

/-- In exact arithmetic the `H` table is not quite unitary: a Hadamard gate
multiplies the total probability by `2 * INV_SQRT2^2`, which exceeds 1 by about
`1.4e-16`. -/
theorem total_probability_contract_H (psi : QState) (t : Fin 3) :
    total_probability (contract psi H t)
      = 2 * INV_SQRT2 * INV_SQRT2 * total_probability psi := by
  apply total_probability_scaled
  intro x y
  simp [H, c_abs2, c_add, c_mul]
  ring

theorem two_INV_SQRT2_sq :
    1 < 2 * INV_SQRT2 * INV_SQRT2 ∧ 2 * INV_SQRT2 * INV_SQRT2 < 1 + 1 / 1000000000000000 := by
  constructor <;> norm_num [INV_SQRT2]

/-- C4: for every 2x2 matrix `U` with `U * U^dagger = I`, every target `t` in
{0,1,2} and every state `psi`, `apply_single_gate` runs to completion and the
sum of `c_abs2` over the eight amplitudes afterwards equals the sum before. -/
theorem apply_single_gate_preserves_probability (U : Gate) (hU : is_unitary U)
    (t : Fin 3) (psi : QState) :
    ∃ psi', apply_single_gate psi U (t.val : Int) = some psi' ∧
      total_probability psi' = total_probability psi :=
  ⟨contract psi U t, apply_single_gate_eq psi U t, total_probability_contract U hU psi t⟩

/-- C4 at the unitary matrix `X`, target 1 and the basis state `|010>`. -/
theorem apply_single_gate_preserves_probability_witness :
    is_unitary X ∧
      ∃ psi', apply_single_gate (basis_state 2) X 1 = some psi' ∧
        total_probability psi' = total_probability (basis_state 2) := by
  have hX : is_unitary X := by
    funext i j
    fin_cases i <;> fin_cases j <;> simp [mat_mul, dagger, X, identity, c_add, c_mul, c_conj]
  exact ⟨hX, apply_single_gate_preserves_probability X hX 1 (basis_state 2)⟩

/-! ## CNOT and Pauli-X are involutions -/

/-- C5: for every state `psi` and every control != target in {0,1,2}, applying
`apply_cnot` twice with the same control and target runs to completion and
gives back exactly `psi`. -/
theorem apply_cnot_twice (psi : QState) (c t : Fin 3) (hct : c ≠ t) :
    ∃ psi1, apply_cnot psi (c.val : Int) (t.val : Int) = some psi1 ∧
      apply_cnot psi1 (c.val : Int) (t.val : Int) = some psi := by
  refine ⟨permute_cnot psi c t, apply_cnot_eq psi c t hct, ?_⟩
  rw [apply_cnot_eq _ c t hct]
  congr 1
  apply QState.ext
  funext k
  show psi.amplitudes (cnot_dest c t (cnot_dest c t k)) = psi.amplitudes k
  rw [cnot_dest_involutive c t hct]

/-- C5 at control 2, target 0 and the basis state `|101>`. -/
theorem apply_cnot_twice_witness :
    (2 : Fin 3) ≠ 0 ∧
      ∃ psi1, apply_cnot (basis_state 5) 2 0 = some psi1 ∧
        apply_cnot psi1 2 0 = some (basis_state 5) :=
  ⟨by decide, apply_cnot_twice (basis_state 5) 2 0 (by decide)⟩

/-- With the `X` table the contraction exchanges the amplitudes of each index
and its partner under the flip of qubit `t`. -/
theorem contract_X (psi : QState) (t : Fin 3) :
    contract psi X t = permute_flip psi t := by
  apply QState.ext
  funext k
  rcases fin2_cases (qubit_of t k) with h | h
  · obtain ⟨-, h2, -⟩ := flip_facts_zero t k h
    simp only [contract, permute_flip, h, h2, c_add_eq, c_mul_eq]
    have e0 : X 0 0 = 0 := rfl
    have e1 : X 0 1 = 1 := rfl
    rw [e0, e1]; ring
  · obtain ⟨-, h2, -⟩ := flip_facts_one t k h
    simp only [contract, permute_flip, h, h2, c_add_eq, c_mul_eq]
    have e0 : X 1 0 = 1 := rfl
    have e1 : X 1 1 = 0 := rfl
    rw [e0, e1]; ring

/-- C6: for every state `psi` and every target `t` in {0,1,2}, applying
`apply_single_gate` with the `X` table to qubit `t` twice runs to completion and
gives back exactly the original amplitudes at all eight indices. -/
theorem apply_single_gate_X_twice (psi : QState) (t : Fin 3) :
    ∃ psi1, apply_single_gate psi X (t.val : Int) = some psi1 ∧
      apply_single_gate psi1 X (t.val : Int) = some psi := by
  refine ⟨contract psi X t, apply_single_gate_eq psi X t, ?_⟩
  rw [apply_single_gate_eq, contract_X, contract_X]
  congr 1
  apply QState.ext
  funext k
  show psi.amplitudes (flip_qubit t (flip_qubit t k)) = psi.amplitudes k
  rw [flip_qubit_involutive]

/-! ## Two gates on the same qubit -/

/-- Two contractions along the same qubit are the contraction with the matrix
product. -/
theorem contract_contract (psi : QState) (A B : Gate) (t : Fin 3) :
    contract (contract psi A t) B t = contract psi (mat_mul B A) t := by
  apply QState.ext
  funext k
  simp only [contract, qubit_of_with_qubit, with_qubit_with_qubit, mat_mul, c_add_eq, c_mul_eq]
  ring

/-- Contraction with a multiple `d * I` of the identity multiplies every
amplitude by `d`. -/
theorem contract_scalar (psi : QState) (d : Complex) (t : Fin 3) :
    contract psi (fun i j => if i = j then d else ⟨0, 0⟩) t
      = ⟨fun k => c_mul d (psi.amplitudes k)⟩ := by
  apply QState.ext
  funext k
  have z : (⟨0, 0⟩ : Complex) = 0 := rfl
  rcases fin2_cases (qubit_of t k) with h | h
  · obtain ⟨h1, -⟩ := flip_facts_zero t k h
    simp only [contract, h, h1, c_add_eq, c_mul_eq, z]
    simp
  · obtain ⟨h1, -⟩ := flip_facts_one t k h
    simp only [contract, h, h1, c_add_eq, c_mul_eq, z]
    simp

/-! ## The initial state and the two scenarios -/

/-- Whatever `*qs` held, `init_state` leaves the basis state `|000>`. -/
theorem init_state_eq (qs : QState) : init_state qs = some (basis_state 0) :=
  eq_some_of_get rfl (fun k => by fin_cases k <;> rfl)

/-- The contraction of a basis state: a column of the matrix, placed at the
indices that agree with `b` outside qubit `t`. -/
theorem contract_basis (G : Gate) (t : Fin 3) (b k : Fin 8) :
    (contract (basis_state b) G t).amplitudes k =
      if with_qubit t k (qubit_of t b) = b then G (qubit_of t k) (qubit_of t b) else ⟨0, 0⟩ := by
  have z : (⟨0, 0⟩ : Complex) = 0 := rfl
  have o : (⟨1, 0⟩ : Complex) = 1 := rfl
  rcases fin2_cases (qubit_of t b) with h | h
  · have hne : with_qubit t k 1 ≠ b := by revert t b k; decide
    simp only [contract, basis_state, h, if_neg hne, c_add_eq, c_mul_eq, z, o]
    split <;> simp
  · have hne : with_qubit t k 0 ≠ b := by revert t b k; decide
    simp only [contract, basis_state, h, if_neg hne, c_add_eq, c_mul_eq, z, o]
    split <;> simp

/-- C8: from the state that `init_state` produces, `H` on qubit 0 followed by
CNOT with control 0 and target 1 runs to completion and leaves amplitude
`0.7071067811865476 + 0i` at index 0 (`|000>`) and at index 6 (`|110>`, qubits 0
and 1 both 1, qubit 2 zero) and exactly `0` at every other index. -/
theorem bell_state_scenario (qs : QState) :
    ∃ s0 s1 s2, init_state qs = some s0 ∧ apply_single_gate s0 H 0 = some s1 ∧
      apply_cnot s1 0 1 = some s2 ∧
      s2.amplitudes 0 = ⟨INV_SQRT2, 0⟩ ∧ s2.amplitudes 6 = ⟨INV_SQRT2, 0⟩ ∧
      (∀ k : Fin 8, k ≠ 0 → k ≠ 6 → s2.amplitudes k = ⟨0, 0⟩) ∧
      (qubit_of 0 0 = 0 ∧ qubit_of 1 0 = 0 ∧ qubit_of 2 0 = 0) ∧
      (qubit_of 0 6 = 1 ∧ qubit_of 1 6 = 1 ∧ qubit_of 2 6 = 0) := by
  have key : ∀ k : Fin 8,
      (permute_cnot (contract (basis_state 0) H 0) 0 1).amplitudes k =
        if k = 0 ∨ k = 6 then ⟨INV_SQRT2, 0⟩ else ⟨0, 0⟩ := by
    intro k
    show (contract (basis_state 0) H 0).amplitudes (cnot_dest 0 1 k) = _
    rw [contract_basis]
    fin_cases k <;> rfl
  refine ⟨basis_state 0, contract (basis_state 0) H 0,
    permute_cnot (contract (basis_state 0) H 0) 0 1, init_state_eq qs,
    apply_single_gate_eq _ H 0, apply_cnot_eq _ 0 1 (by decide), ?_, ?_, ?_, by decide,
    by decide⟩
  · rw [key]; rfl
  · rw [key]; rfl
  · intro k h0 h6
    rw [key, if_neg (by simp [h0, h6])]

/-- C9: from the state that `init_state` produces, `H` on qubit 0 runs to
completion and leaves amplitude `(0.7071067811865476, 0)` at index 0 and at
index 4 (`|100>`, which differs from 0 only in qubit 0) and `(0, 0)` at every
other index. -/
theorem superposition_scenario (qs : QState) :
    ∃ s0 s1, init_state qs = some s0 ∧ apply_single_gate s0 H 0 = some s1 ∧
      s1.amplitudes 0 = ⟨INV_SQRT2, 0⟩ ∧ s1.amplitudes 4 = ⟨INV_SQRT2, 0⟩ ∧
      (∀ k : Fin 8, k ≠ 0 → k ≠ 4 → s1.amplitudes k = ⟨0, 0⟩) ∧
      (4 : Fin 8) = flip_qubit 0 0 := by
  have key : ∀ k : Fin 8,
      (contract (basis_state 0) H 0).amplitudes k =
        if k = 0 ∨ k = 4 then ⟨INV_SQRT2, 0⟩ else ⟨0, 0⟩ := by
    intro k
    rw [contract_basis]
    fin_cases k <;> rfl
  refine ⟨basis_state 0, contract (basis_state 0) H 0, init_state_eq qs,
    apply_single_gate_eq _ H 0, ?_, ?_, ?_, by decide⟩
  · rw [key]; rfl
  · rw [key]; rfl
  · intro k h0 h4
    rw [key, if_neg (by simp [h0, h4])]

/-- C10: whatever `*qs` held before, `init_state` runs to completion and leaves
`amplitudes[0] = (1, 0)` and `amplitudes[i] = (0, 0)` for every `i` in [1, 8), so
that the sum of `c_abs2` over all indices is exactly 1. -/
theorem init_state_basis (qs : QState) :
    ∃ s, init_state qs = some s ∧ s.amplitudes 0 = ⟨1, 0⟩ ∧
      (∀ i : Fin 8, 1 ≤ i.val → s.amplitudes i = ⟨0, 0⟩) ∧
      total_probability s = 1 := by
  refine ⟨basis_state 0, init_state_eq qs, rfl, ?_, ?_⟩
  · intro i hi
    have hne : i ≠ 0 := by
      intro h; rw [h] at hi; exact absurd hi (by decide)
    simp only [basis_state, if_neg hne]
  · simp [total_probability, basis_state, Fin.sum_univ_eight, c_abs2]

/-! ## The circuit grid -/

theorem circuit_write_some (circuit : Circuit) (row col : Int) (ch : Char)
    (hr : 0 ≤ row ∧ row < 3) (hc : 0 ≤ col ∧ col < MAX_GATES) :
    circuit_write circuit row col ch
      = some (fun r j => if (r.val : Int) = row ∧ (j.val : Int) = col then ch else circuit r j) := by
  simp only [circuit_write, dif_pos (And.intro hr hc)]
  congr 1
  funext r j
  simp only [Function.update_apply]
  have e1 : r = ⟨row.toNat, by omega⟩ ↔ (r.val : Int) = row := by
    rw [Fin.ext_iff]; simp only; omega
  have e2 : j = ⟨col.toNat, by omega⟩ ↔ (j.val : Int) = col := by
    rw [Fin.ext_iff]; simp only; omega
  by_cases h1 : (r.val : Int) = row
  · by_cases h2 : (j.val : Int) = col
    · rw [if_pos (e1.mpr h1), Function.update_apply, if_pos (e2.mpr h2), if_pos ⟨h1, h2⟩]
    · rw [if_pos (e1.mpr h1), Function.update_apply, if_neg (fun h => h2 (e2.mp h)),
        if_neg (fun h => h2 h.2)]
      rw [← e1.mpr h1]
  · rw [if_neg (fun h => h1 (e1.mp h)), if_neg (fun h => h1 h.1)]

theorem add_single_gate_to_circuit_eq (circuit : Circuit) (ch : Char) (row : Fin 3)
    (col : Fin MAX_GATES) :
    add_single_gate_to_circuit circuit ch (row.val : Int) (col.val : Int)
      = some (single_column circuit ch row col) := by
  have hcol : 0 ≤ (col.val : Int) ∧ (col.val : Int) < MAX_GATES := by
    have := col.isLt; omega
  have hrow : 0 ≤ (row.val : Int) ∧ (row.val : Int) < 3 := by omega
  rw [add_single_gate_to_circuit, circuit_write_some _ _ _ _ hrow hcol]
  congr 1
  funext r j
  simp only [single_column, Nat.cast_inj, Fin.val_inj]

theorem add_cnot_to_circuit_eq (circuit : Circuit) (control target : Fin 3)
    (col : Fin MAX_GATES) :
    add_cnot_to_circuit circuit (control.val : Int) (target.val : Int) (col.val : Int)
      = some (cnot_column circuit control target col) := by
  have hr : List.range 3 = [0, 1, 2] := rfl
  have hcol : 0 ≤ (col.val : Int) ∧ (col.val : Int) < MAX_GATES := by
    have := col.isLt; omega
  have hc : 0 ≤ (control.val : Int) ∧ (control.val : Int) < 3 := by omega
  have ht : 0 ≤ (target.val : Int) ∧ (target.val : Int) < 3 := by omega
  simp only [add_cnot_to_circuit, hr, List.foldlM_cons, List.foldlM_nil]
  rw [circuit_write_some _ _ _ _ (by decide) hcol]
  simp only [Option.bind_eq_bind, Option.some_bind]
  rw [circuit_write_some _ _ _ _ (by decide) hcol]
  simp only [Option.bind_eq_bind, Option.some_bind]
  rw [circuit_write_some _ _ _ _ (by decide) hcol]
  simp only [Option.bind_eq_bind, Option.some_bind, Option.pure_def]
  rw [circuit_write_some _ _ _ _ hc hcol]
  simp only [Option.bind_eq_bind, Option.some_bind]
  rw [circuit_write_some _ _ _ _ ht hcol]
  congr 1
  funext r j
  simp only [cnot_column, Nat.cast_inj, Fin.val_inj]
  by_cases hj : j = col
  · simp only [hj, and_true, if_true]
    fin_cases r <;> fin_cases control <;> fin_cases target <;> simp
  · simp only [hj, and_false, if_false]

/-! ## One pass through the gate loop -/

/-- A valid `H` or `X` request: the gate is applied, its letter is drawn in
column `gate_count` and `gate_count` advances. -/
theorem loop_body_single (s : Session) (choice : String) (hc : choice = "H" ∨ choice = "X")
    (t : Fin 3) (c : Fin MAX_GATES) (hgc : s.gate_count = (c.val : Int)) (n2 : Int) :
    loop_body s choice (t.val : Int) n2 = some (Flow.next
      ⟨contract s.qs (if choice = "H" then H else X) t,
        single_column s.circuit choice.front t c, (c.val : Int) + 1⟩) := by
  have hf : ¬ (10 ≤ choice.utf8ByteSize) := by rcases hc with rfl | rfl <;> decide
  have hd : choice ≠ "DONE" := by rcases hc with rfl | rfl <;> decide
  have ht : ¬ ((t.val : Int) < 0 ∨ (t.val : Int) ≥ NUM_QUBITS) := by
    simp only [NUM_QUBITS]; omega
  simp only [loop_body, if_neg hf, if_neg hd, if_pos hc, if_neg ht, hgc, apply_single_gate_eq,
    add_single_gate_to_circuit_eq]
  split <;> rfl

/-- A valid `CNOT` request: the gate is applied, it is drawn in column
`gate_count` and `gate_count` advances. -/
theorem loop_body_cnot (s : Session) (control target : Fin 3) (hct : control ≠ target)
    (c : Fin MAX_GATES) (hgc : s.gate_count = (c.val : Int)) :
    loop_body s "CNOT" (control.val : Int) (target.val : Int) = some (Flow.next
      ⟨permute_cnot s.qs control target, cnot_column s.circuit control target c,
        (c.val : Int) + 1⟩) := by
  have e0 : ¬ (10 ≤ "CNOT".utf8ByteSize) := by decide
  have e1 : ¬ ("CNOT" = "DONE") := by decide
  have e2 : ¬ ("CNOT" = "H" ∨ "CNOT" = "X") := by decide
  have hv : ¬ ((control.val : Int) = (target.val : Int) ∨ (control.val : Int) < 0
      ∨ (target.val : Int) < 0 ∨ (control.val : Int) ≥ NUM_QUBITS
      ∨ (target.val : Int) ≥ NUM_QUBITS) := by
    have hne : control.val ≠ target.val := fun h => hct (Fin.ext h)
    simp only [NUM_QUBITS]; omega
  simp only [loop_body, if_neg e0, if_neg e1, if_neg e2, if_neg hv, if_true, hgc,
    apply_cnot_eq _ _ _ hct, add_cnot_to_circuit_eq]
  rfl

/-- A request that the loop rejects, with a word that fits `choice[10]`,
leaves the session as it was. -/
theorem loop_body_rejected (s : Session) (choice : String) (n1 n2 : Int)
    (hf : choice.utf8ByteSize < 10)
    (h : ((choice = "H" ∨ choice = "X") ∧ (n1 < 0 ∨ n1 ≥ 3)) ∨
      (choice = "CNOT" ∧ (n1 = n2 ∨ n1 < 0 ∨ n1 ≥ 3 ∨ n2 < 0 ∨ n2 ≥ 3)) ∨
      (choice ≠ "H" ∧ choice ≠ "X" ∧ choice ≠ "CNOT" ∧ choice ≠ "DONE")) :
    loop_body s choice n1 n2 = some (Flow.next s) := by
  have hf' : ¬ (10 ≤ choice.utf8ByteSize) := by omega
  rcases h with ⟨hc, hn⟩ | ⟨hc, hn⟩ | ⟨h1, h2, h3, h4⟩
  · have hd : choice ≠ "DONE" := by rcases hc with rfl | rfl <;> decide
    simp only [loop_body, if_neg hf', if_neg hd, if_pos hc, NUM_QUBITS, if_pos hn]
  · subst hc
    have hn' : n1 = n2 ∨ n1 < 0 ∨ n2 < 0 ∨ n1 ≥ NUM_QUBITS ∨ n2 ≥ NUM_QUBITS := by
      simp only [NUM_QUBITS]; tauto
    have e1 : ¬ ("CNOT" = "DONE") := by decide
    have e2 : ¬ ("CNOT" = "H" ∨ "CNOT" = "X") := by decide
    simp only [loop_body, if_neg hf', if_neg e1, if_neg e2, if_pos hn', if_true]
  · have e2 : ¬ (choice = "H" ∨ choice = "X") := by tauto
    simp only [loop_body, if_neg hf', if_neg h4, if_neg e2, if_neg h3]

/-! ## Invalid requests -/

/-- C11 fails on the code at an unrecognised name of 10 or more characters:
the word `UNSUPPORTED` is none of `H`, `X`, `CNOT`, `DONE`, and reading it
overruns `char choice[10]`, so the pass does not end with the session
unchanged but in undefined behaviour. -/
theorem unrecognised_long_name_overruns_choice (s : Session) (n1 n2 : Int) :
    ("UNSUPPORTED" ≠ "H" ∧ "UNSUPPORTED" ≠ "X" ∧ "UNSUPPORTED" ≠ "CNOT"
        ∧ "UNSUPPORTED" ≠ "DONE") ∧
      "UNSUPPORTED".utf8ByteSize = 11 ∧
      loop_body s "UNSUPPORTED" n1 n2 = none := by
  refine ⟨by decide, by decide, ?_⟩
  have h : 10 ≤ "UNSUPPORTED".utf8ByteSize := by decide
  simp only [loop_body, if_pos h]

/-- C12, as stated, fails: called with control = target = 0 on `|100>`,
`apply_cnot` signals nothing and returns the different state `|000>`. -/
theorem apply_cnot_same_qubit_changes_state :
    apply_cnot (basis_state 4) 0 0 = some (basis_state 0) ∧ basis_state 0 ≠ basis_state 4 := by
  refine ⟨eq_some_of_get rfl (fun k => by fin_cases k <;> rfl), ?_⟩
  intro h
  have h0 := congrArg (fun q : QState => (q.amplitudes 0).real) h
  simp [basis_state] at h0

/-- C12, amended: the preconditions of CNOT are enforced by the caller.  The
gate loop of `main` ends the pass with the session untouched when control equals
target or an index is outside [0,3), without calling `apply_cnot`; `apply_cnot`
itself checks nothing, and called with control = target in [0,3) it runs to
completion and moves the amplitudes of the indices whose bit is 1 onto their
partners with bit 0, leaving zeros behind. -/
theorem cnot_precondition_checked_by_main (s : Session) (control target : Int)
    (h : control = target ∨ control < 0 ∨ control ≥ 3 ∨ target < 0 ∨ target ≥ 3) :
    loop_body s "CNOT" control target = some (Flow.next s) ∧
      ∀ (psi : QState) (c : Fin 3), apply_cnot psi (c.val : Int) (c.val : Int) = some
        ⟨fun k => if qubit_of c k = 0 then psi.amplitudes (with_qubit c k 1) else ⟨0, 0⟩⟩ := by
  refine ⟨loop_body_rejected s "CNOT" control target (by decide)
    (Or.inr (Or.inl ⟨rfl, h⟩)), ?_⟩
  intro psi c
  fin_cases c
  all_goals exact eq_some_of_get rfl (fun k => by fin_cases k <;> rfl)

/-- C12, amended, at control = target = 1 in a session that holds `|010>`. -/
theorem cnot_precondition_checked_by_main_witness :
    loop_body ⟨basis_state 2, fun _ _ => '-', 0⟩ "CNOT" 1 1
      = some (Flow.next ⟨basis_state 2, fun _ _ => '-', 0⟩) :=
  (cnot_precondition_checked_by_main ⟨basis_state 2, fun _ _ => '-', 0⟩ 1 1 (Or.inl rfl)).1

/-! ## The circuit log -/

/-- C13: in one pass through the gate loop with `gate_count = c`, `0 <= c < 20`,
a valid request writes exactly column `c` of the grid and advances `gate_count`
to `c + 1`.  For `H` and `X` the gate letter is at row `target` and the other
rows of column `c` are unchanged; for `CNOT` there is `O` at the control row,
`X` at the target row and a bar in the remaining row; every other column is
unchanged. -/
theorem circuit_log_append (s : Session) (c : Fin MAX_GATES)
    (hgc : s.gate_count = (c.val : Int)) (control target : Fin 3) (hct : control ≠ target)
    (n2 : Int) :
    (∃ s', loop_body s "H" (target.val : Int) n2 = some (Flow.next s') ∧
      s'.gate_count = (c.val : Int) + 1 ∧ s'.circuit target c = 'H' ∧
      (∀ r, r ≠ target → s'.circuit r c = s.circuit r c) ∧
      (∀ r j, j ≠ c → s'.circuit r j = s.circuit r j)) ∧
    (∃ s', loop_body s "X" (target.val : Int) n2 = some (Flow.next s') ∧
      s'.gate_count = (c.val : Int) + 1 ∧ s'.circuit target c = 'X' ∧
      (∀ r, r ≠ target → s'.circuit r c = s.circuit r c) ∧
      (∀ r j, j ≠ c → s'.circuit r j = s.circuit r j)) ∧
    (∃ s', loop_body s "CNOT" (control.val : Int) (target.val : Int) = some (Flow.next s') ∧
      s'.gate_count = (c.val : Int) + 1 ∧
      s'.circuit control c = 'O' ∧ s'.circuit target c = 'X' ∧
      (∀ r, r ≠ control → r ≠ target → s'.circuit r c = '|') ∧
      (∀ r j, j ≠ c → s'.circuit r j = s.circuit r j)) := by
  refine ⟨⟨_, loop_body_single s "H" (Or.inl rfl) target c hgc n2, rfl, ?_, ?_, ?_⟩,
    ⟨_, loop_body_single s "X" (Or.inr rfl) target c hgc n2, rfl, ?_, ?_, ?_⟩,
    ⟨_, loop_body_cnot s control target hct c hgc, rfl, ?_, ?_, ?_, ?_⟩⟩
  · simp only [single_column, and_self, if_true]; rfl
  · intro r hr; simp only [single_column, hr, false_and, if_false]
  · intro r j hj; simp only [single_column, hj, and_false, if_false]
  · simp only [single_column, and_self, if_true]; rfl
  · intro r hr; simp only [single_column, hr, false_and, if_false]
  · intro r j hj; simp only [single_column, hj, and_false, if_false]
  · simp only [cnot_column, if_true, if_neg hct]
  · simp only [cnot_column, if_true]
  · intro r h1 h2; simp only [cnot_column, if_true, if_neg h1, if_neg h2]
  · intro r j hj; simp only [cnot_column, if_neg hj]

/-- C13 in a session with seven recorded gates, for control 2 and target 0. -/
theorem circuit_log_append_witness :
    ∃ s', loop_body ⟨basis_state 0, fun _ _ => '-', 7⟩ "CNOT" 2 0 = some (Flow.next s') ∧
      s'.gate_count = 8 ∧ s'.circuit 2 7 = 'O' ∧ s'.circuit 0 7 = 'X' ∧
      s'.circuit 1 7 = '|' ∧ s'.circuit 1 6 = '-' := by
  obtain ⟨s', h, hg, h1, h2, h3, h4⟩ :=
    (circuit_log_append ⟨basis_state 0, fun _ _ => '-', 7⟩ 7 rfl 2 0 (by decide) 0).2.2
  exact ⟨s', h, hg, h1, h2, h3 1 (by decide) (by decide), h4 1 6 (by decide)⟩

/-! ## Pauli-X under the displayed labelling -/

/-- The rows of `print_state`: for every index its three qubits, qubit 0
first, and its amplitude. -/
theorem print_state_eq (qs : QState) :
    print_state qs = some ((List.finRange 8).map (fun i =>
      ((((qubit_of 0 i).val : Int), ((qubit_of 1 i).val : Int), ((qubit_of 2 i).val : Int)),
        qs.amplitudes i))) := by
  rfl

/-- The label that `print_state` prints for index `i` is made of the three
qubits of `i`, qubit 0 first. -/
theorem print_state_label_eq (i : Fin 8) :
    print_state_label (i.val : Int)
      = some (((qubit_of 0 i).val : Int), ((qubit_of 1 i).val : Int),
          ((qubit_of 2 i).val : Int)) := by
  revert i; decide

/-- C15: for every state `psi` and target `t` in {0,1,2}, after
`apply_single_gate` with the `X` table the amplitude at every index `i` is the
one `psi` had at `i XOR (1 << (2-t))`; the labels that `print_state` prints for
the two indices differ in digit `t` and agree in the other two digits. -/
theorem apply_single_gate_X_flips_qubit (psi : QState) (t : Fin 3) :
    ∃ psi', apply_single_gate psi X (t.val : Int) = some psi' ∧
      ∀ i : Fin 8, ∃ i' : Fin 8, ∃ l l' : Int × Int × Int,
        psi'.amplitudes i = psi.amplitudes i' ∧
        i'.val = i.val ^^^ (1 <<< (2 - t.val)) ∧
        print_state_label (i.val : Int) = some l ∧
        print_state_label (i'.val : Int) = some l' ∧
        label_digit l' t = 1 - label_digit l t ∧
        ∀ q : Fin 3, q ≠ t → label_digit l' q = label_digit l q := by
  refine ⟨contract psi X t, apply_single_gate_eq psi X t, ?_⟩
  intro i
  refine ⟨flip_qubit t i, _, _, ?_, flip_qubit_xor t i, print_state_label_eq i,
    print_state_label_eq (flip_qubit t i), ?_, ?_⟩
  · rw [contract_X]; rfl
  · revert t i; decide
  · revert t i; decide

/-! ## Composition and commutation of single-qubit gates -/

theorem identity_eq : identity = fun i j => if i = j then ⟨1, 0⟩ else ⟨0, 0⟩ := by
  funext i j
  fin_cases i <;> fin_cases j <;> rfl

theorem contract_identity (psi : QState) (t : Fin 3) : contract psi identity t = psi := by
  rw [identity_eq, contract_scalar]
  apply QState.ext
  funext k
  have o : (⟨1, 0⟩ : Complex) = 1 := rfl
  simp only [c_mul_eq, o, one_mul]

/-- C16: for every state `psi`, every target `t` in {0,1,2} and all 2x2
matrices `A` and `B`, `apply_single_gate` with `A` and then with `B` on qubit `t`
gives the same state as one `apply_single_gate` with the matrix product `B*A`;
with the 2x2 identity matrix it leaves every amplitude unchanged. -/
theorem apply_single_gate_compose (psi : QState) (A B : Gate) (t : Fin 3) :
    (∃ psi1 psi2, apply_single_gate psi A (t.val : Int) = some psi1 ∧
      apply_single_gate psi1 B (t.val : Int) = some psi2 ∧
      apply_single_gate psi (mat_mul B A) (t.val : Int) = some psi2) ∧
    apply_single_gate psi identity (t.val : Int) = some psi := by
  refine ⟨⟨contract psi A t, contract (contract psi A t) B t, apply_single_gate_eq _ _ _,
    apply_single_gate_eq _ _ _, ?_⟩, ?_⟩
  · rw [apply_single_gate_eq, contract_contract]
  · rw [apply_single_gate_eq, contract_identity]

theorem with_qubit_comm (s t : Fin 3) (hst : s ≠ t) (k : Fin 8) (v w : Fin 2) :
    with_qubit s (with_qubit t k v) w = with_qubit t (with_qubit s k w) v := by
  revert s t k v w; decide

theorem contract_comm (psi : QState) (A B : Gate) (s t : Fin 3) (hst : s ≠ t) :
    contract (contract psi A s) B t = contract (contract psi B t) A s := by
  apply QState.ext
  funext k
  simp only [contract, qubit_of_with_qubit_ne s t hst, qubit_of_with_qubit_ne t s hst.symm,
    with_qubit_comm s t hst, c_add_eq, c_mul_eq]
  ring

/-- C17: for every state `psi`, all 2x2 matrices `A` and `B` and all targets
`s != t` in {0,1,2}, `apply_single_gate` with `A` on `s` and then with `B` on `t`
yields the same state as with `B` on `t` and then with `A` on `s`. -/
theorem apply_single_gate_commute (psi : QState) (A B : Gate) (s t : Fin 3) (hst : s ≠ t) :
    ∃ psi1 psi2 psi3, apply_single_gate psi A (s.val : Int) = some psi1 ∧
      apply_single_gate psi1 B (t.val : Int) = some psi3 ∧
      apply_single_gate psi B (t.val : Int) = some psi2 ∧
      apply_single_gate psi2 A (s.val : Int) = some psi3 := by
  refine ⟨contract psi A s, contract psi B t, contract (contract psi A s) B t,
    apply_single_gate_eq _ _ _, apply_single_gate_eq _ _ _, apply_single_gate_eq _ _ _, ?_⟩
  rw [apply_single_gate_eq, contract_comm psi A B s t hst]

/-- C17 for `H` on qubit 0 and `X` on qubit 2, from `|000>`. -/
theorem apply_single_gate_commute_witness :
    (0 : Fin 3) ≠ 2 ∧
      ∃ psi1 psi2 psi3, apply_single_gate (basis_state 0) H 0 = some psi1 ∧
        apply_single_gate psi1 X 2 = some psi3 ∧
        apply_single_gate (basis_state 0) X 2 = some psi2 ∧
        apply_single_gate psi2 H 0 = some psi3 :=
  ⟨by decide, apply_single_gate_commute (basis_state 0) H X 0 2 (by decide)⟩

/-! ## Array bounds -/

/-- An amplitude write succeeds exactly when the index is inside
`amplitudes[STATE_SIZE]`. -/
theorem write_isSome (qs : QState) (i : Int) (v : Complex) :
    (qs.write i v).isSome = true ↔ 0 ≤ i ∧ i < STATE_SIZE := by
  unfold QState.write
  split
  · rename_i h
    simp only [Option.isSome_some, true_iff]
    exact h
  · rename_i h
    simp only [Option.isSome_none, Bool.false_eq_true, false_iff]
    exact h

/-- C18: for a target in [0,3) the shift amount `2 - target` is in [0,2], the
value of `bit` is 0 or 1 and every `flipped` index of `apply_single_gate` lies
in [0,8); for control and target in [0,3) every `new_index` of `apply_cnot` lies
in [0,8); so both functions run to completion without an access outside the
arrays, an access that the embedding answers with `none`. -/
theorem index_bounds (t : Fin 3) :
    (0 ≤ NUM_QUBITS - 1 - (t.val : Int) ∧ NUM_QUBITS - 1 - (t.val : Int) ≤ 2) ∧
    (∀ i : Fin 8, ∃ b : Fin 2, bit_at (i.val : Int) (t.val : Int) = some (b.val : Int)) ∧
    (∀ i : Fin 8, ∀ j : Fin 2, ∃ f : Fin 8,
      flipped (i.val : Int) (j.val : Int) (t.val : Int) = some (f.val : Int)) ∧
    (∀ c : Fin 3, ∀ i : Fin 8, ∃ n : Fin 8,
      new_index (i.val : Int) (c.val : Int) (t.val : Int) = some (n.val : Int)) ∧
    (∀ (psi : QState) (G : Gate), (apply_single_gate psi G (t.val : Int)).isSome = true) ∧
    (∀ (psi : QState) (c : Fin 3),
      (apply_cnot psi (c.val : Int) (t.val : Int)).isSome = true) ∧
    (∀ (qs : QState) (i : Int) (v : Complex),
      (qs.write i v).isSome = true ↔ 0 ≤ i ∧ i < STATE_SIZE) := by
  refine ⟨by revert t; decide, by revert t; decide, by revert t; decide, by revert t; decide,
    ?_, ?_, write_isSome⟩
  · intro psi G
    rw [apply_single_gate_eq]; rfl
  · intro psi c
    fin_cases c <;> fin_cases t <;> rfl

/-! ## The gate counter -/

end QSim
